import Mathlib

/-!
Verification of the locator self-healing engine and the process-execution
lifecycle of the katalon-mcp-server repository.

The definitions below are a shallow embedding of
src/katalon/smart-healing.ts and src/katalon/test-executor.ts:
JavaScript numbers carrying confidence scores become rationals,
strings stay strings (worked on via their character lists),
the per-project JSON history file becomes an explicit list of attempts
threaded through the operations, and the map of running child processes
becomes a list of run identifiers.  Fallible operations return Except.
-/

deriving instance DecidableEq for Except

namespace KatalonMCP

/-- One healing strategy entry, mirroring interface HealingStrategy
(smart-healing.ts lines 25-31). -/
structure HealingStrategy where
  name : String
  priority : Int
  enabled : Bool
  description : String
  implementation : String
deriving DecidableEq

/-- Result of one strategy transform: a candidate selector and a heuristic
confidence, mirroring the anonymous return type of applyHealingStrategy. -/
structure HealingResult where
  selector : String
  confidence : ℚ
deriving DecidableEq

/-- Record of one healing invocation, mirroring interface HealingAttempt
(smart-healing.ts lines 38-47).  The Date timestamp is abstracted to a
natural number supplied by the caller. -/
structure HealingAttempt where
  objectName : String
  originalSelector : String
  healedSelector : String
  strategy : String
  confidence : ℚ
  timestamp : Nat
  success : Bool
  errorMessage : Option String
deriving DecidableEq

/-- Per-project healing configuration, mirroring interface SmartHealingConfig
(smart-healing.ts lines 11-18). -/
structure SmartHealingConfig where
  enabled : Bool
  confidenceThreshold : ℚ
  maxHealingAttempts : Nat
  reportFailures : Bool
  autoUpdateObjects : Bool
  healingStrategies : List HealingStrategy
deriving DecidableEq

/-- Aggregate healing report, mirroring interface HealingReport
(smart-healing.ts lines 54-62). -/
structure HealingReport where
  totalAttempts : Nat
  successfulHealing : Nat
  failedHealing : Nat
  averageConfidence : ℚ
  topStrategies : List String
  recentAttempts : List HealingAttempt
  recommendations : List String
deriving DecidableEq

/-- The built-in strategy catalog returned by getDefaultHealingStrategies
(smart-healing.ts lines 257-302). -/
def getDefaultHealingStrategies : List HealingStrategy :=
  [ { name := "attribute_fallback", priority := 10, enabled := true,
      description := "Try alternative attributes (id, name, class) when primary selector fails",
      implementation := "attribute_based" },
    { name := "xpath_optimization", priority := 9, enabled := true,
      description := "Optimize XPath selectors for better reliability",
      implementation := "xpath_based" },
    { name := "css_conversion", priority := 8, enabled := true,
      description := "Convert XPath to CSS selectors when possible",
      implementation := "css_based" },
    { name := "text_content_matching", priority := 7, enabled := true,
      description := "Use text content for element identification",
      implementation := "text_based" },
    { name := "relative_positioning", priority := 6, enabled := true,
      description := "Use relative positioning from stable parent elements",
      implementation := "position_based" },
    { name := "visual_recognition", priority := 5, enabled := false,
      description := "Use visual appearance for element identification (requires additional setup)",
      implementation := "visual_based" } ]

/-- The hard-coded fallback configuration used when no configuration file is
readable (smart-healing.ts lines 317-324, identical to the defaults of
configureSmartHealing lines 92-99). -/
def defaultHealingConfig : SmartHealingConfig :=
  { enabled := true
    confidenceThreshold := mkRat 8 10
    maxHealingAttempts := 3
    reportFailures := true
    autoUpdateObjects := false
    healingStrategies := getDefaultHealingStrategies }

/-! ### Character-level helpers for the regular-expression work in the
transforms.  JavaScript regex literals over these fixed patterns are
re-expressed as direct leftmost-match scanners. -/

/-- A quote character, the character set of the regex fragment matching a
single or double quote. -/
def isQuoteChar (c : Char) : Bool := c == '"' || c.toNat == 39

/-- Whitespace as matched by the regex class backslash-s on the inputs at
hand (ASCII whitespace). -/
def isWsChar (c : Char) : Bool :=
  c == ' ' || c == '\t' || c == '\n' || c == '\r' || c.toNat == 11 || c.toNat == 12

/-- Remove a literal pattern from the front of a character list, returning
the remainder on success. -/
def stripPfx : List Char → List Char → Option (List Char)
  | [], s => some s
  | _ :: _, [] => none
  | p :: ps, c :: cs => if c == p then stripPfx ps cs else none

/-- Does the character list start with the given literal pattern? -/
def startsWithL (pat s : List Char) : Bool := (stripPfx pat s).isSome

/-- Does the character list contain the given literal pattern anywhere
(the semantics of String.prototype.includes)? -/
def containsSub (pat : List Char) : List Char → Bool
  | [] => startsWithL pat []
  | s@(_ :: rest) => startsWithL pat s || containsSub pat rest

/-- At the current position, match the regex shape: the literal pat, then a
quote, then one or more non-quote characters (captured), then a quote.
This is the shape of the id, class and text() capture regexes in
smart-healing.ts lines 407, 414 and 426. -/
def quotedCaptureAt (pat s : List Char) : Option (List Char) :=
  match stripPfx pat s with
  | none => none
  | some rest =>
    match rest with
    | [] => none
    | q :: rest2 =>
      if isQuoteChar q then
        let run := rest2.takeWhile (fun c => !isQuoteChar c)
        if run.isEmpty then none
        else
          match rest2.drop run.length with
          | [] => none
          | _ :: _ => some run
      else none

/-- Leftmost match of the quoted-capture shape anywhere in the list,
returning the captured group (the semantics of String.prototype.match on
the fixed patterns, first capture group). -/
def quotedCapture (pat : List Char) : List Char → Option (List Char)
  | [] => quotedCaptureAt pat []
  | s@(_ :: rest) =>
    match quotedCaptureAt pat s with
    | some cap => some cap
    | none => quotedCapture pat rest

/-- Global removal of positional predicates: every occurrence of a bracket
holding one or more digits is deleted (the first replace of
xpathOptimizationHealing, smart-healing.ts line 390). -/
def removeNumPreds (s : List Char) : List Char :=
  match s with
  | [] => []
  | c :: rest =>
    if c == '[' then
      let ds := rest.takeWhile (fun d => d.isDigit)
      if ds.isEmpty then c :: removeNumPreds rest
      else
        match h : rest.drop ds.length with
        | b :: rest2 =>
          if b == ']' then removeNumPreds rest2 else c :: removeNumPreds rest
        | [] => c :: removeNumPreds rest
    else c :: removeNumPreds rest
termination_by s.length
decreasing_by
  all_goals first
    | (simp only [List.length_cons]; omega)
    | (have h1 := congrArg List.length h
       simp only [List.length_drop, List.length_cons] at h1
       simp only [List.length_cons]
       omega)

/-- Global removal of the literal text() step (the second replace of
xpathOptimizationHealing, smart-healing.ts line 391). -/
def removeTextNodes : List Char → List Char
  | '/' :: 't' :: 'e' :: 'x' :: 't' :: '(' :: ')' :: rest => removeTextNodes rest
  | c :: rest => c :: removeTextNodes rest
  | [] => []

/-- Replace every maximal whitespace run by the single character r (the
whitespace-normalisation replace of smart-healing.ts lines 392 and 416).
The flag records whether the scan is inside a run already rewritten. -/
def collapseWsAux (r : Char) : List Char → Bool → List Char
  | [], _ => []
  | c :: rest, inRun =>
    if isWsChar c then
      if inRun then collapseWsAux r rest true
      else r :: collapseWsAux r rest true
    else c :: collapseWsAux r rest false

/-- Trim leading and trailing whitespace (String.prototype.trim,
smart-healing.ts line 393). -/
def trimWs (s : List Char) : List Char :=
  ((s.dropWhile isWsChar).reverse.dropWhile isWsChar).reverse

/-- At the current position, match the backreference regex of
smart-healing.ts line 397: the literal id-equals, a captured quote, a lazy
run of non-newline characters, then the same quote again.  Returns the
captured run and the remainder after the closing quote. -/
def idContainsAt (s : List Char) : Option (List Char × List Char) :=
  match stripPfx "@id=".data s with
  | some (q :: rest) =>
    if isQuoteChar q then
      let run := rest.takeWhile (fun c => c != q && c != '\n')
      match rest.drop run.length with
      | c :: rest2 => if c == q then some (run, rest2) else none
      | [] => none
    else none
  | _ => none

/-- Replace the first (leftmost) match of the id-equals backreference regex
by a contains form (the single non-global replace of smart-healing.ts line
397); none when the regex does not match anywhere. -/
def replaceIdContains : List Char → Option (List Char)
  | [] => none
  | s@(c :: rest) =>
    match idContainsAt s with
    | some (cap, rem) =>
      some ("contains(@id, \"".data ++ cap ++ "\")".data ++ rem)
    | none =>
      match replaceIdContains rest with
      | some r => some (c :: r)
      | none => none

/-! ### The six strategy transforms (smart-healing.ts lines 357-472). -/

/-- generateAttributeSelector (smart-healing.ts lines 458-472). -/
def generateAttributeSelector (originalSelector attrName : String) : String :=
  if attrName = "id" then "//*[@id=\"generated-id\"]"
  else if attrName = "name" then "//*[@name=\"generated-name\"]"
  else if attrName = "class" then "//*[@class=\"generated-class\"]"
  else if attrName = "data-testid" then "//*[@data-testid=\"generated-testid\"]"
  else originalSelector

/-- attributeFallbackHealing (smart-healing.ts lines 357-378): look up the
fallback attribute list for the selector type and propose a selector built
from the first entry, with fixed confidence 0.85. -/
def attributeFallbackHealing (originalSelector selectorType : String) : HealingResult :=
  let fallbacks : List String :=
    if selectorType = "id" then ["name", "data-testid", "class"]
    else if selectorType = "name" then ["id", "data-testid", "class"]
    else if selectorType = "class" then ["id", "name", "data-testid"]
    else if selectorType = "xpath" then ["id", "name", "class"]
    else ["id", "name", "class"]
  match fallbacks with
  | f :: _ => { selector := generateAttributeSelector originalSelector f, confidence := mkRat 85 100 }
  | [] => { selector := originalSelector, confidence := 0 }

/-- xpathOptimizationHealing (smart-healing.ts lines 380-401): textual
simplification of an XPath selector, confidence 0.8; confidence 0 when the
input does not start with a double slash. -/
def xpathOptimizationHealing (originalSelector : String) : HealingResult :=
  if !startsWithL "//".data originalSelector.data then
    { selector := originalSelector, confidence := 0 }
  else
    let step := trimWs (collapseWsAux ' '
      (removeTextNodes (removeNumPreds originalSelector.data)) false)
    let opt :=
      if containsSub "@id=".data step then
        match replaceIdContains step with
        | some r => r
        | none => step
      else step
    { selector := String.mk opt, confidence := mkRat 8 10 }

/-- cssConversionHealing (smart-healing.ts lines 403-422): convert a simple
id or class XPath predicate to a CSS selector, confidence 0.9 for id and
0.85 for class, otherwise 0. -/
def cssConversionHealing (originalSelector : String) : HealingResult :=
  if startsWithL "//".data originalSelector.data then
    match (if containsSub "@id=".data originalSelector.data then
             quotedCapture "@id=".data originalSelector.data else none) with
    | some cap => { selector := String.mk ('#' :: cap), confidence := mkRat 9 10 }
    | none =>
      match (if containsSub "@class=".data originalSelector.data then
               quotedCapture "@class=".data originalSelector.data else none) with
      | some cap =>
        { selector := String.mk ('.' :: collapseWsAux '.' cap false), confidence := mkRat 85 100 }
      | none => { selector := originalSelector, confidence := 0 }
  else { selector := originalSelector, confidence := 0 }

/-- textContentHealing (smart-healing.ts lines 424-433): rewrite a text()
equality predicate as a contains XPath, confidence 0.75, otherwise 0. -/
def textContentHealing (originalSelector : String) : HealingResult :=
  match quotedCapture "text()=".data originalSelector.data with
  | some cap =>
    { selector := String.mk ("//*[contains(text(), \"".data ++ cap ++ "\")]".data)
      confidence := mkRat 75 100 }
  | none => { selector := originalSelector, confidence := 0 }

/-- relativePositioningHealing (smart-healing.ts lines 435-447): anchor an
XPath under body by dropping one leading character of the double slash,
confidence 0.7, otherwise 0. -/
def relativePositioningHealing (originalSelector : String) : HealingResult :=
  if startsWithL "//".data originalSelector.data then
    { selector := "//body" ++ String.mk (originalSelector.data.drop 1), confidence := mkRat 7 10 }
  else { selector := originalSelector, confidence := 0 }

/-- visualRecognitionHealing (smart-healing.ts lines 449-456): stub with
fixed low confidence. -/
def visualRecognitionHealing (originalSelector _projectPath : String) : HealingResult :=
  { selector := originalSelector, confidence := mkRat 3 10 }

/-- applyHealingStrategy (smart-healing.ts lines 327-355): dispatch on the
implementation tag, defaulting to confidence 0. -/
def applyHealingStrategy (strategy : HealingStrategy)
    (originalSelector selectorType projectPath : String) : HealingResult :=
  if strategy.implementation = "attribute_based" then
    attributeFallbackHealing originalSelector selectorType
  else if strategy.implementation = "xpath_based" then
    xpathOptimizationHealing originalSelector
  else if strategy.implementation = "css_based" then
    cssConversionHealing originalSelector
  else if strategy.implementation = "text_based" then
    textContentHealing originalSelector
  else if strategy.implementation = "position_based" then
    relativePositioningHealing originalSelector
  else if strategy.implementation = "visual_based" then
    visualRecognitionHealing originalSelector projectPath
  else { selector := originalSelector, confidence := 0 }

/-! ### Stable sorting.

Array.prototype.sort is a stable sort; both call sites in smart-healing.ts
sort by a numeric key descending.  The embedding uses a fold of a stable
insertion that places the new element after every element whose key is at
least its own, which yields exactly the stable descending order. -/

/-- Insert an element into a list sorted descending by key, after all
elements of key at least its own (stability for equal keys). -/
def insertByKeyDesc {α β : Type} [LinearOrder β] (key : α → β) (a : α) :
    List α → List α
  | [] => [a]
  | b :: l => if key a ≤ key b then b :: insertByKeyDesc key a l
              else a :: b :: l

/-- Stable sort, descending by key: the embedding of a JavaScript sort with
comparator subtracting keys in reverse order. -/
def sortByKeyDesc {α β : Type} [LinearOrder β] (key : α → β) (l : List α) : List α :=
  l.foldl (fun acc x => insertByKeyDesc key x acc) []

/-- The strategy ordering of healObject (smart-healing.ts line 136): sort by
priority descending, stable. -/
def sortStrategies (l : List HealingStrategy) : List HealingStrategy :=
  sortByKeyDesc (fun s => s.priority) l

/-! ### The healing engine core. -/

/-- The strategy loop of healObject (smart-healing.ts lines 132-166) with
its surrounding try/catch.  The transform argument returns Except so that a
raising transform can be modelled; in healObject itself the transform is
the total applyHealingStrategy wrapped in ok.  A raised error sets
errorMessage on the attempt under construction and leaves the loop (the
catch encloses the whole loop, so remaining strategies are skipped). -/
def healLoop (transform : HealingStrategy → Except String HealingResult)
    (threshold : ℚ) : List HealingStrategy → HealingAttempt → HealingAttempt
  | [], att => att
  | s :: rest, att =>
    match transform s with
    | .error e => { att with errorMessage := some e }
    | .ok r =>
      if threshold ≤ r.confidence then
        { att with healedSelector := r.selector, strategy := s.name,
                   confidence := r.confidence, success := true }
      else healLoop transform threshold rest att

/-- healObject (smart-healing.ts lines 110-176) up to its persistence
effects: check the enabled flag, build the initial attempt, filter and sort
the strategies, and run the loop.  The loaded configuration is passed in
explicitly (loadHealingConfig is file input modelled by the caller), as is
the timestamp. -/
def healObjectCore (config : SmartHealingConfig)
    (projectPath objectName originalSelector selectorType : String)
    (timestamp : Nat) : Except String HealingAttempt :=
  if !config.enabled then .error "Smart healing is disabled for this project"
  else
    let attempt : HealingAttempt :=
      { objectName := objectName
        originalSelector := originalSelector
        healedSelector := originalSelector
        strategy := ""
        confidence := 0
        timestamp := timestamp
        success := false
        errorMessage := none }
    let strategies := sortStrategies (config.healingStrategies.filter (fun s => s.enabled))
    .ok (healLoop
      (fun s => .ok (applyHealingStrategy s originalSelector selectorType projectPath))
      config.confidenceThreshold strategies attempt)

/-- saveHealingAttempt (smart-healing.ts lines 521-545) acting on the
decoded contents of the healing-attempts file: append, then keep only the
last 1000 entries. -/
def saveHealingAttempt (file : List HealingAttempt) (attempt : HealingAttempt) :
    List HealingAttempt :=
  let attempts := file ++ [attempt]
  if 1000 < attempts.length then attempts.drop (attempts.length - 1000)
  else attempts

/-- The mutable state touched by one healObject call: the in-memory
healingHistory array and the persisted healing-attempts file. -/
structure HealState where
  history : List HealingAttempt
  file : List HealingAttempt
deriving DecidableEq

/-- healObject including its state effects (smart-healing.ts lines 168-173):
push the attempt onto the in-memory history, and persist it when
reportFailures is set or the attempt succeeded.  On the disabled error the
state is returned unchanged. -/
def healObject (config : SmartHealingConfig)
    (projectPath objectName originalSelector selectorType : String)
    (timestamp : Nat) (st : HealState) :
    HealState × Except String HealingAttempt :=
  match healObjectCore config projectPath objectName originalSelector selectorType timestamp with
  | .error e => (st, .error e)
  | .ok att =>
    ({ history := st.history ++ [att]
       file := if config.reportFailures || att.success then saveHealingAttempt st.file att
               else st.file },
     .ok att)

/-! ### Reporting. -/

/-- One step of the per-strategy success tally: bump the counter of a name
in an association list, appending a fresh entry when absent.  This is the
object-update of smart-healing.ts line 190 (and the identical line 591),
with Object.entries order being first-insertion order of the keys. -/
def bumpCount (acc : List (String × Nat)) (n : String) : List (String × Nat) :=
  match acc with
  | [] => [(n, 1)]
  | (m, c) :: rest => if m = n then (m, c + 1) :: rest else (m, c) :: bumpCount rest n

/-- Per-strategy success counts in first-seen order (smart-healing.ts lines
188-191 and 588-593: a fold over the attempts tallying only successes). -/
def strategyUsage (attempts : List HealingAttempt) : List (String × Nat) :=
  attempts.foldl (fun acc a => if a.success then bumpCount acc a.strategy else acc) []

/-- Sort the tally entries by count descending, stable (the comparator of
smart-healing.ts lines 194 and 595). -/
def sortUsage (u : List (String × Nat)) : List (String × Nat) :=
  sortByKeyDesc (fun p => p.2) u

/-- generateRecommendations (smart-healing.ts lines 562-604). -/
def generateRecommendations (attempts : List HealingAttempt) : List String :=
  if attempts.length = 0 then
    ["No healing attempts found. Enable smart healing to start collecting data."]
  else
    let successRate : ℚ :=
      ((attempts.filter (fun a => a.success)).length : ℚ) / (attempts.length : ℚ)
    let recentFailures :=
      (attempts.drop (attempts.length - 20)).filter (fun a => !a.success)
    let topStrategy := (sortUsage (strategyUsage attempts)).head?
    (if successRate < mkRat 5 10 then
       ["Low healing success rate. Consider reviewing object identification strategies."]
     else []) ++
    (if mkRat 8 10 < successRate then
       ["High healing success rate. Consider enabling auto-update for objects."]
     else []) ++
    (if 10 < recentFailures.length then
       ["Multiple recent healing failures detected. Review application changes."]
     else []) ++
    (match topStrategy with
     | some p =>
       ["Most successful strategy: " ++ p.1 ++ ". Consider prioritizing this strategy."]
     | none => [])

/-- generateHealingReport (smart-healing.ts lines 181-212) acting on the
decoded healing history (loadHealingHistory is file input modelled by the
caller passing the file contents). -/
def generateHealingReport (attempts : List HealingAttempt) : HealingReport :=
  let successfulAttempts := attempts.filter (fun a => a.success)
  let failedAttempts := attempts.filter (fun a => !a.success)
  let topStrategies :=
    ((sortUsage (strategyUsage attempts)).take 3).map (fun p => p.1)
  let averageConfidence : ℚ :=
    if 0 < successfulAttempts.length then
      (successfulAttempts.foldl (fun sum a => sum + a.confidence) 0) /
        (successfulAttempts.length : ℚ)
    else 0
  { totalAttempts := attempts.length
    successfulHealing := successfulAttempts.length
    failedHealing := failedAttempts.length
    averageConfidence := averageConfidence
    topStrategies := topStrategies
    recentAttempts := attempts.drop (attempts.length - 10)
    recommendations := generateRecommendations attempts }

/-! ### The execution supervisor (test-executor.ts). -/

/-- Execution options, mirroring interface ExecutionOptions
(test-executor.ts lines 27-36) restricted to the fields validation and the
live-run table observe. -/
structure ExecutionOptions where
  projectPath : String
  testSuitePath : String
  browser : Option String
deriving DecidableEq

/-- A file-system oracle: which paths exist (fs.pathExists). -/
abbrev FSOracle : Type := String → Bool

/-- path.join for the two-segment joins used by validateExecution,
simplified to separator concatenation. -/
def pathJoin (a b : String) : String := a ++ "/" ++ b

/-- The supported browser set (test-executor.ts line 146). -/
def supportedBrowsers : List String := ["Chrome", "Firefox", "Safari", "Edge", "IE"]

/-- validateExecution (test-executor.ts lines 127-150): the four fail-fast
checks, in source order. -/
def validateExecution (fs : FSOracle) (options : ExecutionOptions) :
    Except String Unit :=
  if !fs options.projectPath then
    .error ("Project path does not exist: " ++ options.projectPath)
  else if !fs (pathJoin options.projectPath ".project") then
    .error ("Invalid Katalon project: " ++ options.projectPath)
  else if !fs (pathJoin options.projectPath options.testSuitePath) then
    .error ("Test suite not found: " ++ options.testSuitePath)
  else
    match options.browser with
    | some b =>
      if !supportedBrowsers.contains b then .error ("Unsupported browser: " ++ b)
      else .ok ()
    | none => .ok ()

/-- The live-run table: the key set of the runningProcesses map
(test-executor.ts line 52); the child-process handles carry no observable
state in this model. -/
abbrev RunTable : Type := List String

/-- Outcome of the validation stage of executeTest (test-executor.ts lines
87-101): whether a subprocess was spawned, the table afterwards, and the
propagated result. -/
structure ExecStart where
  spawned : Bool
  table : RunTable
  result : Except String Unit

/-- executeTest up to the spawn (test-executor.ts lines 87-101 with
runKatalonCommand line 235): a validation error propagates before any
subprocess is spawned or registered; on success the run is registered in
the table under the fresh execution id. -/
def executeTestStart (fs : FSOracle) (options : ExecutionOptions)
    (table : RunTable) (executionId : String) : ExecStart :=
  match validateExecution fs options with
  | .error e => { spawned := false, table := table, result := .error e }
  | .ok _ => { spawned := true, table := table ++ [executionId], result := .ok () }

/-- stopExecution (test-executor.ts lines 391-399): when the id is live,
kill its process and delete the table entry, returning true; otherwise
return false. -/
def stopExecution (table : RunTable) (executionId : String) : Bool × RunTable :=
  if table.contains executionId then (true, table.filter (fun k => k != executionId))
  else (false, table)

/-- getRunningExecutions (test-executor.ts lines 404-406). -/
def getRunningExecutions (table : RunTable) : List String := table

/-- The exit-code normalisation of the close handler (test-executor.ts line
252): the or-default expression maps a null code (signal termination) and a
zero code to 0, any other code to itself. -/
def closeExitCode (code : Option Int) : Int :=
  match code with
  | none => 0
  | some c => if c = 0 then 0 else c

/-- The success flag of the ExecutionResult (test-executor.ts line 114). -/
def executionSuccess (exitCode : Int) : Bool := exitCode == 0

/-! ### Specification-side formulations for the report contract (claims C6
and C7).  These follow the words of the specification — counts per distinct
strategy name in first-seen order, slices described from the tail — and are
proved equal to the source-side fold-based computations. -/

/-- Distinct entries of a list in order of first occurrence. -/
def dedupFirst (xs : List String) : List String :=
  xs.foldl (fun acc n => if n ∈ acc then acc else acc ++ [n]) []

/-- The successful attempts of a ledger. -/
def successfulOf (attempts : List HealingAttempt) : List HealingAttempt :=
  attempts.filter (fun a => a.success)

/-- The strategy names of the successful attempts, in ledger order. -/
def successNames (attempts : List HealingAttempt) : List String :=
  (successfulOf attempts).map (fun a => a.strategy)

/-- Number of successful attempts of the ledger credited to a strategy
name. -/
def succCountSpec (attempts : List HealingAttempt) (n : String) : Nat :=
  (attempts.filter (fun a => a.success && a.strategy == n)).length

/-- The per-strategy success tally as the specification words it: one entry
per distinct successful strategy name, in first-seen order, carrying its
success count. -/
def usageSpec (attempts : List HealingAttempt) : List (String × Nat) :=
  (dedupFirst (successNames attempts)).map (fun n => (n, succCountSpec attempts n))

/-- The first entry of a tally whose count is maximal (the strategy with
the most successes, earliest first on ties). -/
def argmaxFirst (u : List (String × Nat)) : Option (String × Nat) :=
  u.find? (fun p => u.all (fun q => decide (q.2 ≤ p.2)))

/-- The last k entries of a list, in order, described from the tail. -/
def lastEntries {α : Type} (k : Nat) (l : List α) : List α :=
  (l.reverse.take k).reverse


/-- The recommendation rules as the specification words them, evaluated in
order with every matching rule included: the empty-ledger rule, the
low-success-rate rule, the high-success-rate rule, the recent-failures
rule over the last twenty attempts, and the prioritise-the-most-successful-
strategy rule. -/
def recommendationsSpec (attempts : List HealingAttempt) : List String :=
  if attempts = [] then
    ["No healing attempts found. Enable smart healing to start collecting data."]
  else
    (if ((attempts.countP (fun a => a.success) : ℚ) / (attempts.length : ℚ))
          < mkRat 5 10 then
      ["Low healing success rate. Consider reviewing object identification strategies."]
     else []) ++
    (if mkRat 8 10
          < ((attempts.countP (fun a => a.success) : ℚ) / (attempts.length : ℚ)) then
      ["High healing success rate. Consider enabling auto-update for objects."]
     else []) ++
    (if 10 < (lastEntries 20 attempts).countP (fun a => !a.success) then
      ["Multiple recent healing failures detected. Review application changes."]
     else []) ++
    (match argmaxFirst (usageSpec attempts) with
     | some p =>
       ["Most successful strategy: " ++ p.1 ++ ". Consider prioritizing this strategy."]
     | none => [])


/-! ### Results of the Scenario A input (claims C1 and C2). -/

/-- A transform that raises on the attribute-fallback strategy and returns
confidence 0.9 on every other strategy. -/
def throwingTransform (s : HealingStrategy) : Except String HealingResult :=
  if s.name = "attribute_fallback" then Except.error "boom"
  else Except.ok { selector := "#submit-btn", confidence := mkRat 9 10 }

/-- The blank attempt a heal call starts from on the Scenario A input. -/
def scenarioAInitial : HealingAttempt :=
  { objectName := "loginBtn"
    originalSelector := "//button[@id='submit-btn']"
    healedSelector := "//button[@id='submit-btn']"
    strategy := ""
    confidence := 0
    timestamp := 0
    success := false
    errorMessage := none }

/-- The default xpath-optimization strategy entry. -/
def xpathOptStrategy : HealingStrategy :=
  { name := "xpath_optimization", priority := 9, enabled := true,
    description := "Optimize XPath selectors for better reliability",
    implementation := "xpath_based" }

/-- The attempt actually produced on the Scenario A input: the
attribute-fallback strategy, having the highest priority and confidence
0.85 at threshold 0.8, wins before css conversion is ever consulted. -/
def scenarioAAttempt : HealingAttempt :=
  { objectName := "loginBtn"
    originalSelector := "//button[@id='submit-btn']"
    healedSelector := "//*[@id=\"generated-id\"]"
    strategy := "attribute_fallback"
    confidence := mkRat 85 100
    timestamp := 0
    success := true
    errorMessage := none }

/-- Claim C1: on the Scenario A input the heal call is said to pick
css conversion with healed locator hash-submit-btn.  In fact the
attribute-fallback strategy (priority 10, confidence 0.85, at or above the
0.8 threshold) is accepted first, so the produced attempt names
attribute_fallback and a generated attribute selector, refuting the claim
at this concrete input. -/
theorem c1_counterexample :
    healObjectCore defaultHealingConfig "/project" "loginBtn"
        "//button[@id='submit-btn']" "xpath" 0 = Except.ok scenarioAAttempt
    ∧ scenarioAAttempt.strategy ≠ "css_conversion"
    ∧ scenarioAAttempt.healedSelector ≠ "#submit-btn" := by
  refine ⟨by decide, by decide, by decide⟩

/-- Claim C1 (amended): on the Scenario A input, heal succeeds with
strategyName attribute_fallback, confidence 0.85 and the generated
attribute selector as healed locator; css conversion is never reached
because attribute_fallback has the higher priority and already meets the
threshold. -/
theorem c1_amended_scenarioA :
    healObjectCore defaultHealingConfig "/project" "loginBtn"
        "//button[@id='submit-btn']" "xpath" 0 = Except.ok scenarioAAttempt
    ∧ scenarioAAttempt.success = true
    ∧ scenarioAAttempt.strategy = "attribute_fallback"
    ∧ scenarioAAttempt.confidence = mkRat 85 100 := by
  refine ⟨by decide, by decide, by decide, by decide⟩

/-! ### Claim C3: behaviour of the loop when a transform raises. -/

/-- Claim C3 is refuted at a concrete input: when the first strategy's
transform raises, the catch that encloses the whole strategy loop stops the
iteration, so a later enabled strategy whose transform would return
confidence 0.9 (at or above the 0.8 threshold) is never invoked — the
attempt comes back failed with the error message, not healed. -/
theorem c3_counterexample :
    (healLoop throwingTransform (mkRat 8 10)
        (sortStrategies (getDefaultHealingStrategies.filter (fun s => s.enabled)))
        scenarioAInitial).success = false
    ∧ (healLoop throwingTransform (mkRat 8 10)
        (sortStrategies (getDefaultHealingStrategies.filter (fun s => s.enabled)))
        scenarioAInitial).errorMessage = some "boom"
    ∧ xpathOptStrategy ∈
        sortStrategies (getDefaultHealingStrategies.filter (fun s => s.enabled))
    ∧ throwingTransform xpathOptStrategy =
        Except.ok { selector := "#submit-btn", confidence := mkRat 9 10 }
    ∧ mkRat 8 10 ≤ mkRat 9 10 := by
  refine ⟨by decide, by decide, by decide, by decide, by decide⟩

/-- Claim C3 (amended): a transform exception is caught at the level of the
whole heal call, recorded as errorMessage on the (failed) attempt, and the
call itself returns normally — but the loop stops there: after any run of
strategies whose transforms returned confidence below the threshold, a
raising transform ends the iteration and the remaining strategies are not
invoked (the result does not depend on them). -/
theorem heal_exception_stops_loop (transform : HealingStrategy → Except String HealingResult)
    (th : ℚ) (att : HealingAttempt) (s : HealingStrategy) (e : String)
    (pre : List HealingStrategy)
    (hpre : ∀ t ∈ pre, ∃ r, transform t = Except.ok r ∧ r.confidence < th)
    (hs : transform s = Except.error e) :
    ∀ rest : List HealingStrategy,
      healLoop transform th (pre ++ s :: rest) att = { att with errorMessage := some e } := by
  intro rest
  induction pre with
  | nil => simp [healLoop, hs]
  | cons t pre ih =>
    obtain ⟨r, hr, hlt⟩ := hpre t (by simp)
    have ih2 := ih (fun t ht => hpre t (by simp [ht]))
    simpa [healLoop, hr, not_le.mpr hlt] using ih2

/-- Witness for the amended claim C3 at a concrete input: the throwing
transform raises immediately on the attribute-fallback strategy and the
result carries the error message whatever strategies remain. -/
theorem heal_exception_stops_loop_witness :
    healLoop throwingTransform (mkRat 8 10)
        ([] ++ { name := "attribute_fallback", priority := 10, enabled := true,
                 description := "Try alternative attributes (id, name, class) when primary selector fails",
                 implementation := "attribute_based" } :: [xpathOptStrategy])
        scenarioAInitial
      = { scenarioAInitial with errorMessage := some "boom" } :=
  heal_exception_stops_loop throwingTransform (mkRat 8 10) scenarioAInitial
    { name := "attribute_fallback", priority := 10, enabled := true,
      description := "Try alternative attributes (id, name, class) when primary selector fails",
      implementation := "attribute_based" }
    "boom" [] (by intro t ht; cases ht) (by decide) [xpathOptStrategy]

/-! ### Claim C4: healing disabled. -/

/-- Claim C4: a heal call against a configuration whose enabled flag is
false fails with the healing-disabled error, no strategies run, and both
the in-memory history and the persisted ledger are unchanged. -/
theorem heal_disabled_no_attempt (config : SmartHealingConfig)
    (projectPath objectName originalSelector selectorType : String)
    (timestamp : Nat) (st : HealState) (h : config.enabled = false) :
    healObject config projectPath objectName originalSelector selectorType timestamp st
      = (st, Except.error "Smart healing is disabled for this project") := by
  simp [healObject, healObjectCore, h]

/-- Witness for claim C4: a disabled default configuration on the Scenario
A input with an empty state. -/
theorem heal_disabled_no_attempt_witness :
    healObject { defaultHealingConfig with enabled := false } "/project" "loginBtn"
        "//button[@id='submit-btn']" "xpath" 0 { history := [], file := [] }
      = ({ history := [], file := [] }, Except.error "Smart healing is disabled for this project") :=
  heal_disabled_no_attempt { defaultHealingConfig with enabled := false }
    "/project" "loginBtn" "//button[@id='submit-btn']" "xpath" 0
    { history := [], file := [] } rfl

/-! ### Claims C8, C9 and C10: the execution supervisor. -/

/-- Claim C8: stopping the same run twice returns true then false when the
run was live (the second call is a no-op and the run has left the running
list after the first), and returns false for a run that was never live;
stopExecution is a total function, so it never throws. -/
theorem stop_idempotent (table : RunTable) (executionId : String) :
    (table.contains executionId = true →
      (stopExecution table executionId).1 = true
      ∧ (stopExecution (stopExecution table executionId).2 executionId).1 = false
      ∧ (stopExecution (stopExecution table executionId).2 executionId).2
          = (stopExecution table executionId).2
      ∧ executionId ∉ getRunningExecutions (stopExecution table executionId).2)
    ∧ (table.contains executionId = false →
      (stopExecution table executionId).1 = false
      ∧ (stopExecution table executionId).2 = table) := by
  have hnot : executionId ∉ table.filter (fun k => k != executionId) := by
    intro hmem
    have := (List.mem_filter.mp hmem).2
    simp at this
  constructor
  · intro h
    have hmem : executionId ∈ table := by simpa using h
    have h1 : stopExecution table executionId
        = (true, table.filter (fun k => k != executionId)) := by
      simp [stopExecution, hmem]
    have h2 : stopExecution (table.filter (fun k => k != executionId)) executionId
        = (false, table.filter (fun k => k != executionId)) := by
      simp [stopExecution, hnot]
    refine ⟨by simp [h1], by simp [h1, h2], by simp [h1, h2], ?_⟩
    simpa [h1, getRunningExecutions] using hnot
  · intro h
    have hmem : executionId ∉ table := by simpa using h
    exact ⟨by simp [stopExecution, hmem], by simp [stopExecution, hmem]⟩

/-- Witness for claim C8 at a concrete table: one live run, stopped twice,
and a stop of a run that was never live. -/
theorem stop_idempotent_witness :
    ((stopExecution ["run1"] "run1").1 = true
      ∧ (stopExecution (stopExecution ["run1"] "run1").2 "run1").1 = false
      ∧ (stopExecution (stopExecution ["run1"] "run1").2 "run1").2
          = (stopExecution ["run1"] "run1").2
      ∧ "run1" ∉ getRunningExecutions (stopExecution ["run1"] "run1").2)
    ∧ ((stopExecution ["run1"] "other").1 = false
      ∧ (stopExecution ["run1"] "other").2 = ["run1"]) :=
  ⟨(stop_idempotent ["run1"] "run1").1 (by decide),
   (stop_idempotent ["run1"] "other").2 (by decide)⟩

/-- Claim C9: validateExecution passes exactly when the project path
exists, the project marker file exists under it, the suite path exists
under it, and any requested browser is in the supported set; on any
violation executeTest propagates the validation error before a subprocess
is spawned or the run registered, leaving the running list unchanged. -/
theorem validation_fails_fast (fs : FSOracle) (options : ExecutionOptions)
    (table : RunTable) (executionId : String) :
    (validateExecution fs options = Except.ok () ↔
      (fs options.projectPath = true
        ∧ fs (pathJoin options.projectPath ".project") = true
        ∧ fs (pathJoin options.projectPath options.testSuitePath) = true
        ∧ ∀ b, options.browser = some b → supportedBrowsers.contains b = true))
    ∧ (∀ e, validateExecution fs options = Except.error e →
        executeTestStart fs options table executionId
          = { spawned := false, table := table, result := Except.error e }
        ∧ getRunningExecutions (executeTestStart fs options table executionId).table
          = getRunningExecutions table) := by
  constructor
  · unfold validateExecution
    rcases hb : options.browser with _ | b
    · constructor
      · intro h
        by_cases h1 : fs options.projectPath <;>
          by_cases h2 : fs (pathJoin options.projectPath ".project") <;>
          by_cases h3 : fs (pathJoin options.projectPath options.testSuitePath) <;>
          simp_all
      · intro ⟨h1, h2, h3, _⟩
        simp [h1, h2, h3]
    · constructor
      · intro h
        by_cases h1 : fs options.projectPath <;>
          by_cases h2 : fs (pathJoin options.projectPath ".project") <;>
          by_cases h3 : fs (pathJoin options.projectPath options.testSuitePath) <;>
          by_cases h4 : supportedBrowsers.contains b <;>
          simp_all
      · intro ⟨h1, h2, h3, h4⟩
        have hb4 : b ∈ supportedBrowsers := by simpa using h4 b rfl
        simp [h1, h2, h3, hb4]
  · intro e he
    constructor
    · simp [executeTestStart, he]
    · simp [executeTestStart, he, getRunningExecutions]

/-- Witness for claim C9: a file system where nothing exists rejects the
request with the project-path error, nothing is spawned and the (empty)
running table is untouched. -/
theorem validation_fails_fast_witness :
    executeTestStart (fun _ => false) { projectPath := "/proj", testSuitePath := "s.ts", browser := some "Chrome" } [] "exec1"
      = { spawned := false, table := [], result := Except.error "Project path does not exist: /proj" }
    ∧ getRunningExecutions (executeTestStart (fun _ => false)
        { projectPath := "/proj", testSuitePath := "s.ts", browser := some "Chrome" } [] "exec1").table
      = getRunningExecutions [] :=
  (validation_fails_fast (fun _ => false)
    { projectPath := "/proj", testSuitePath := "s.ts", browser := some "Chrome" } [] "exec1").2
    "Project path does not exist: /proj" rfl

/-- Claim C10: a child process that reaches the close handler with a null
exit code (for instance after being killed by a signal) has its exit code
normalised to 0 by the or-default expression, so the resulting
ExecutionResult reports success. -/
theorem null_exit_code_reports_success :
    closeExitCode none = 0 ∧ executionSuccess (closeExitCode none) = true :=
  ⟨rfl, rfl⟩

/-! ### Claim C5: the 1000-entry bound of the persisted ledger. -/

/-- One save keeps exactly the most recent 1000 of the appended sequence,
as long as the ledger it starts from is within the bound. -/
lemma saveHealingAttempt_eq_drop (file : List HealingAttempt) (a : HealingAttempt)
    (h : file.length ≤ 1000) :
    saveHealingAttempt file a
      = (file ++ [a]).drop (file.length + 1 - 1000) := by
  by_cases hc : 1000 < file.length + 1
  · have h1 : saveHealingAttempt file a
        = (file ++ [a]).drop ((file ++ [a]).length - 1000) := by
      simp only [saveHealingAttempt]
      rw [if_pos]
      simpa using hc
    rw [h1]
    have harith : (file ++ [a]).length - 1000 = file.length + 1 - 1000 := by
      simp only [List.length_append, List.length_cons, List.length_nil]
    rw [harith]
  · have h1 : saveHealingAttempt file a = file ++ [a] := by
      simp only [saveHealingAttempt]
      rw [if_neg]
      simpa using hc
    rw [h1, show file.length + 1 - 1000 = 0 from by omega, List.drop_zero]

/-- Folding saves over a sequence from any in-bound ledger retains exactly
the most recent 1000 entries of ledger-then-sequence. -/
lemma foldl_save_eq_drop (xs : List HealingAttempt) :
    ∀ acc : List HealingAttempt, acc.length ≤ 1000 →
      xs.foldl saveHealingAttempt acc
        = (acc ++ xs).drop (acc.length + xs.length - 1000) := by
  induction xs with
  | nil =>
    intro acc h
    simp only [List.foldl_nil, List.append_nil, List.length_nil, Nat.add_zero]
    rw [show acc.length - 1000 = 0 from by omega, List.drop_zero]
  | cons a xs ih =>
    intro acc h
    have hsave := saveHealingAttempt_eq_drop acc a h
    have hlen : (saveHealingAttempt acc a).length = min (acc.length + 1) 1000 := by
      rw [hsave]
      simp only [List.length_drop, List.length_append, List.length_cons, List.length_nil]
      omega
    have hle : (saveHealingAttempt acc a).length ≤ 1000 := by omega
    calc (a :: xs).foldl saveHealingAttempt acc
        = xs.foldl saveHealingAttempt (saveHealingAttempt acc a) := by simp
      _ = ((saveHealingAttempt acc a) ++ xs).drop
            ((saveHealingAttempt acc a).length + xs.length - 1000) := ih _ hle
      _ = (acc ++ a :: xs).drop (acc.length + (a :: xs).length - 1000) := by
          rw [hsave]
          have hd : acc.length + 1 - 1000 ≤ (acc ++ [a]).length := by
            simp only [List.length_append, List.length_cons, List.length_nil]
            omega
          rw [← List.drop_append_of_le_length hd, List.drop_drop,
            show (acc ++ [a]) ++ xs = acc ++ a :: xs from by simp]
          have harith : acc.length + 1 - 1000 +
                ((List.drop (acc.length + 1 - 1000) (acc ++ [a])).length
                  + xs.length - 1000)
              = acc.length + (a :: xs).length - 1000 := by
            simp only [List.length_drop, List.length_append, List.length_cons,
              List.length_nil]
            omega
          rw [harith]

/-- Claim C5: after any sequence of recorded attempts the persisted ledger
holds at most 1000 entries, eviction is oldest-first, the retained entries
are exactly the most recently appended 1000, and the report's total count
therefore never exceeds 1000. -/
theorem ledger_bounded (xs : List HealingAttempt) :
    (xs.foldl saveHealingAttempt []).length ≤ 1000
    ∧ xs.foldl saveHealingAttempt [] = xs.drop (xs.length - 1000)
    ∧ (generateHealingReport (xs.foldl saveHealingAttempt [])).totalAttempts ≤ 1000 := by
  have h := foldl_save_eq_drop xs [] (by simp)
  simp only [List.nil_append, List.length_nil, Nat.zero_add] at h
  have hlen : (xs.foldl saveHealingAttempt []).length ≤ 1000 := by
    rw [h, List.length_drop]
    omega
  have htotal : (generateHealingReport (xs.foldl saveHealingAttempt [])).totalAttempts
      = (xs.foldl saveHealingAttempt []).length := rfl
  exact ⟨hlen, h, by rw [htotal]; exact hlen⟩

/-! ### Properties of the stable descending sort. -/

lemma insertByKeyDesc_perm {α β : Type} [LinearOrder β] (key : α → β) (a : α) :
    ∀ l : List α, (insertByKeyDesc key a l).Perm (a :: l) := by
  intro l
  induction l with
  | nil => simp [insertByKeyDesc]
  | cons b l ih =>
    by_cases hc : key a ≤ key b
    · have h1 : insertByKeyDesc key a (b :: l) = b :: insertByKeyDesc key a l := by
        simp [insertByKeyDesc, hc]
      rw [h1]
      exact (ih.cons b).trans (List.Perm.swap a b l)
    · simp [insertByKeyDesc, hc]

lemma foldl_insert_perm {α β : Type} [LinearOrder β] (key : α → β) :
    ∀ (l acc : List α),
      (l.foldl (fun acc x => insertByKeyDesc key x acc) acc).Perm (acc ++ l) := by
  intro l
  induction l with
  | nil => intro acc; simp
  | cons a l ih =>
    intro acc
    have h1 : (a :: l).foldl (fun acc x => insertByKeyDesc key x acc) acc
        = l.foldl (fun acc x => insertByKeyDesc key x acc) (insertByKeyDesc key a acc) := by
      simp
    rw [h1]
    exact (ih _).trans
      (((insertByKeyDesc_perm key a acc).append_right l).trans List.perm_middle.symm)

lemma sortByKeyDesc_perm {α β : Type} [LinearOrder β] (key : α → β) (l : List α) :
    (sortByKeyDesc key l).Perm l := by
  simpa [sortByKeyDesc] using foldl_insert_perm key l []

lemma mem_insertByKeyDesc {α β : Type} [LinearOrder β] (key : α → β) (a x : α)
    (l : List α) : x ∈ insertByKeyDesc key a l ↔ x = a ∨ x ∈ l := by
  rw [(insertByKeyDesc_perm key a l).mem_iff]
  simp

lemma pairwise_insertByKeyDesc {α β : Type} [LinearOrder β] (key : α → β) (a : α)
    (l : List α) (h : l.Pairwise (fun x y => key y ≤ key x)) :
    (insertByKeyDesc key a l).Pairwise (fun x y => key y ≤ key x) := by
  induction l with
  | nil => simp [insertByKeyDesc]
  | cons b l ih =>
    rcases List.pairwise_cons.mp h with ⟨hb, hl⟩
    by_cases hc : key a ≤ key b
    · rw [insertByKeyDesc, if_pos hc]
      refine List.pairwise_cons.mpr ⟨?_, ih hl⟩
      intro x hx
      rcases (mem_insertByKeyDesc key a x l).mp hx with hxa | hxl
      · rw [hxa]; exact hc
      · exact hb x hxl
    · rw [insertByKeyDesc, if_neg hc]
      refine List.pairwise_cons.mpr ⟨?_, h⟩
      intro x hx
      rcases List.mem_cons.mp hx with hxb | hxl
      · rw [hxb]; exact le_of_lt (lt_of_not_le hc)
      · exact le_trans (hb x hxl) (le_of_lt (lt_of_not_le hc))

lemma sortByKeyDesc_pairwise {α β : Type} [LinearOrder β] (key : α → β)
    (l : List α) : (sortByKeyDesc key l).Pairwise (fun x y => key y ≤ key x) := by
  suffices haux : ∀ (l acc : List α), acc.Pairwise (fun x y => key y ≤ key x) →
      (l.foldl (fun acc x => insertByKeyDesc key x acc) acc).Pairwise
        (fun x y => key y ≤ key x) by
    exact haux l [] (by simp)
  intro l
  induction l with
  | nil => intro acc h; simpa using h
  | cons a l ih =>
    intro acc h
    simpa using ih (insertByKeyDesc key a acc) (pairwise_insertByKeyDesc key a acc h)

lemma filter_insertByKeyDesc {α β : Type} [LinearOrder β] (key : α → β) (a : α)
    (k : β) (l : List α) (h : l.Pairwise (fun x y => key y ≤ key x)) :
    (insertByKeyDesc key a l).filter (fun x => decide (key x = k))
      = l.filter (fun x => decide (key x = k))
        ++ (if key a = k then [a] else []) := by
  induction l with
  | nil => by_cases hak : key a = k <;> simp [insertByKeyDesc, hak]
  | cons b l ih =>
    rcases List.pairwise_cons.mp h with ⟨hb, hl⟩
    by_cases hc : key a ≤ key b
    · rw [insertByKeyDesc, if_pos hc]
      by_cases hbk : key b = k <;>
        simp [List.filter_cons, hbk, ih hl]
    · rw [insertByKeyDesc, if_neg hc]
      have hba : key b < key a := lt_of_not_le hc
      by_cases hak : key a = k
      · have hnone : (b :: l).filter (fun x => decide (key x = k)) = [] := by
          rw [List.filter_eq_nil_iff]
          intro x hx
          have hxle : key x ≤ key b := by
            rcases List.mem_cons.mp hx with hxb | hxl
            · rw [hxb]
            · exact hb x hxl
          simp only [decide_eq_true_eq]
          intro hxk
          have hxa : key x = key a := by rw [hxk, hak]
          have hcontr : key a ≤ key b := by rw [← hxa]; exact hxle
          exact absurd hcontr (not_le.mpr hba)
        simp [List.filter_cons, hak, hnone]
      · by_cases hbk : key b = k <;>
          simp [List.filter_cons, hak, hbk]

/-- Stability of the stable descending sort, phrased through filters: for
every key value, the elements carrying that key appear in the sorted list
in exactly their original order. -/
lemma sortByKeyDesc_stable {α β : Type} [LinearOrder β] (key : α → β)
    (l : List α) (k : β) :
    (sortByKeyDesc key l).filter (fun x => decide (key x = k))
      = l.filter (fun x => decide (key x = k)) := by
  suffices haux : ∀ (l acc : List α), acc.Pairwise (fun x y => key y ≤ key x) →
      (l.foldl (fun acc x => insertByKeyDesc key x acc) acc).filter
          (fun x => decide (key x = k))
        = acc.filter (fun x => decide (key x = k))
          ++ l.filter (fun x => decide (key x = k)) by
    simpa [sortByKeyDesc] using haux l [] (by simp)
  intro l
  induction l with
  | nil => intro acc h; simp
  | cons a l ih =>
    intro acc h
    have h1 : (a :: l).foldl (fun acc x => insertByKeyDesc key x acc) acc
        = l.foldl (fun acc x => insertByKeyDesc key x acc) (insertByKeyDesc key a acc) := by
      simp
    rw [h1, ih (insertByKeyDesc key a acc) (pairwise_insertByKeyDesc key a acc h),
      filter_insertByKeyDesc key a k acc h]
    by_cases hak : key a = k <;> simp [List.filter_cons, hak]

/-! ### The strategy loop with an everywhere-defined transform. -/

/-- Behaviour of the strategy loop when no transform raises: the attempt
succeeds exactly when some listed strategy reaches the threshold, and on
success the attempt's fields are taken from the first accepted strategy,
every earlier strategy falling below the threshold. -/
lemma healLoop_ok_spec (g : HealingStrategy → HealingResult) (th : ℚ) :
    ∀ (l : List HealingStrategy) (att : HealingAttempt), att.success = false →
      ((healLoop (fun s => Except.ok (g s)) th l att).success = true ↔
        ∃ s ∈ l, th ≤ (g s).confidence)
      ∧ ((healLoop (fun s => Except.ok (g s)) th l att).success = true →
          ∃ l1 s l2, l = l1 ++ s :: l2
            ∧ (∀ t ∈ l1, (g t).confidence < th)
            ∧ th ≤ (g s).confidence
            ∧ (healLoop (fun s => Except.ok (g s)) th l att).strategy = s.name
            ∧ (healLoop (fun s => Except.ok (g s)) th l att).healedSelector = (g s).selector
            ∧ (healLoop (fun s => Except.ok (g s)) th l att).confidence = (g s).confidence) := by
  intro l
  induction l with
  | nil =>
    intro att hatt
    constructor
    · simp [healLoop, hatt]
    · intro hsucc
      rw [healLoop] at hsucc
      rw [hatt] at hsucc
      cases hsucc
  | cons s rest ih =>
    intro att hatt
    by_cases hc : th ≤ (g s).confidence
    · have hrun : healLoop (fun s => Except.ok (g s)) th (s :: rest) att
          = { att with healedSelector := (g s).selector, strategy := s.name,
                       confidence := (g s).confidence, success := true } := by
        simp [healLoop, hc]
      constructor
      · rw [hrun]
        simp only [true_iff]
        exact ⟨s, by simp, hc⟩
      · intro _
        exact ⟨[], s, rest, by simp, by simp, hc, by rw [hrun], by rw [hrun], by rw [hrun]⟩
    · have hrun : healLoop (fun s => Except.ok (g s)) th (s :: rest) att
          = healLoop (fun s => Except.ok (g s)) th rest att := by
        simp [healLoop, hc]
      rcases ih att hatt with ⟨hiff, hfirst⟩
      constructor
      · rw [hrun, hiff]
        constructor
        · rintro ⟨t, ht, hth⟩
          exact ⟨t, by simp [ht], hth⟩
        · rintro ⟨t, ht, hth⟩
          rcases List.mem_cons.mp ht with hts | htr
          · exact absurd (hts ▸ hth) hc
          · exact ⟨t, htr, hth⟩
      · intro hsucc
        rw [hrun] at hsucc
        rcases hfirst hsucc with ⟨l1, t, l2, hsplit, hlow, hth, hname, hsel, hconf⟩
        refine ⟨s :: l1, t, l2, by simp [hsplit], ?_, hth, ?_, ?_, ?_⟩
        · intro u hu
          rcases List.mem_cons.mp hu with hus | hul
          · rw [hus]; exact lt_of_not_le hc
          · exact hlow u hul
        · rw [hrun]; exact hname
        · rw [hrun]; exact hsel
        · rw [hrun]; exact hconf

/-- Claim C2: a heal call (with healing enabled, hence returning an
attempt) succeeds exactly when some enabled strategy's transform meets the
confidence threshold; on success the strategy name, healed selector and
confidence come from the first accepting strategy in the engine's order,
and that order is by priority descending (the pairwise clause) with ties
kept in registration order (the stability clause). -/
theorem heal_first_strategy (config : SmartHealingConfig)
    (projectPath objectName originalSelector selectorType : String)
    (timestamp : Nat) (att : HealingAttempt)
    (h : healObjectCore config projectPath objectName originalSelector selectorType timestamp
          = Except.ok att) :
    (att.success = true ↔
      ∃ s ∈ config.healingStrategies, s.enabled = true
        ∧ config.confidenceThreshold
            ≤ (applyHealingStrategy s originalSelector selectorType projectPath).confidence)
    ∧ (att.success = true →
        ∃ l1 s l2,
          sortStrategies (config.healingStrategies.filter (fun s => s.enabled))
            = l1 ++ s :: l2
          ∧ (∀ t ∈ l1,
              (applyHealingStrategy t originalSelector selectorType projectPath).confidence
                < config.confidenceThreshold)
          ∧ config.confidenceThreshold
              ≤ (applyHealingStrategy s originalSelector selectorType projectPath).confidence
          ∧ att.strategy = s.name
          ∧ att.healedSelector
              = (applyHealingStrategy s originalSelector selectorType projectPath).selector
          ∧ att.confidence
              = (applyHealingStrategy s originalSelector selectorType projectPath).confidence)
    ∧ (sortStrategies (config.healingStrategies.filter (fun s => s.enabled))).Pairwise
        (fun a b => b.priority ≤ a.priority)
    ∧ (∀ p : Int,
        (sortStrategies (config.healingStrategies.filter (fun s => s.enabled))).filter
            (fun s => decide (s.priority = p))
          = (config.healingStrategies.filter (fun s => s.enabled)).filter
              (fun s => decide (s.priority = p))) := by
  have henabled : config.enabled = true := by
    by_contra hne
    rw [healObjectCore, if_pos (by simp [Bool.eq_false_iff.mpr hne])] at h
    cases h
  rw [healObjectCore, if_neg (by simp [henabled])] at h
  have hatt := (Except.ok.injEq _ _).mp h
  set g := fun s => applyHealingStrategy s originalSelector selectorType projectPath with hg
  set sorted := sortStrategies (config.healingStrategies.filter (fun s => s.enabled))
    with hsorted
  have hspec := healLoop_ok_spec g config.confidenceThreshold sorted
    { objectName := objectName, originalSelector := originalSelector,
      healedSelector := originalSelector, strategy := "", confidence := 0,
      timestamp := timestamp, success := false, errorMessage := none } rfl
  rw [hatt] at hspec
  rcases hspec with ⟨hiff, hfirst⟩
  refine ⟨?_, hfirst, ?_, ?_⟩
  · rw [hiff]
    constructor
    · rintro ⟨s, hs, hth⟩
      have hmem := (sortByKeyDesc_perm (fun s => s.priority)
        (config.healingStrategies.filter (fun s => s.enabled))).mem_iff.mp hs
      rcases List.mem_filter.mp hmem with ⟨hmem2, hen⟩
      exact ⟨s, hmem2, by exact hen, hth⟩
    · rintro ⟨s, hs, hen, hth⟩
      refine ⟨s, ?_, hth⟩
      rw [hsorted, sortStrategies]
      exact (sortByKeyDesc_perm (fun s => s.priority) _).mem_iff.mpr
        (List.mem_filter.mpr ⟨hs, by exact hen⟩)
  · exact sortByKeyDesc_pairwise _ _
  · intro p
    exact sortByKeyDesc_stable _ _ p

/-- Witness for claim C2 on the Scenario A input with the default
configuration: the success equivalence instantiated concretely. -/
theorem heal_first_strategy_witness :
    scenarioAAttempt.success = true ↔
      ∃ s ∈ defaultHealingConfig.healingStrategies, s.enabled = true
        ∧ defaultHealingConfig.confidenceThreshold
            ≤ (applyHealingStrategy s "//button[@id='submit-btn']" "xpath" "/project").confidence :=
  (heal_first_strategy defaultHealingConfig "/project" "loginBtn"
    "//button[@id='submit-btn']" "xpath" 0 scenarioAAttempt (by decide)).1

lemma lastEntries_eq_drop {α : Type} (k : Nat) (l : List α) :
    lastEntries k l = l.drop (l.length - k) :=
  (List.rtake_eq_reverse_take_reverse l k).symm

/-! #### The fold-based tally equals the specification tally. -/

lemma strategyUsage_eq_foldl_names (attempts : List HealingAttempt) :
    strategyUsage attempts = (successNames attempts).foldl bumpCount [] := by
  suffices haux : ∀ (l : List HealingAttempt) (acc : List (String × Nat)),
      l.foldl (fun acc a => if a.success then bumpCount acc a.strategy else acc) acc
        = ((l.filter (fun a => a.success)).map (fun a => a.strategy)).foldl bumpCount acc by
    exact haux attempts []
  intro l
  induction l with
  | nil => intro acc; simp
  | cons a l ih =>
    intro acc
    by_cases ha : a.success <;> simp [List.filter_cons, ha, ih]

lemma mem_dedupFirst (xs : List String) (m : String) :
    m ∈ dedupFirst xs ↔ m ∈ xs := by
  suffices haux : ∀ (xs acc : List String),
      (m ∈ xs.foldl (fun acc n => if n ∈ acc then acc else acc ++ [n]) acc
        ↔ m ∈ acc ∨ m ∈ xs) by
    simpa [dedupFirst] using haux xs []
  intro xs
  induction xs with
  | nil => intro acc; simp
  | cons n xs ih =>
    intro acc
    by_cases hn : n ∈ acc
    · rw [List.foldl_cons, if_pos hn, ih]
      constructor
      · rintro (h | h)
        · exact Or.inl h
        · exact Or.inr (by simp [h])
      · rintro (h | h)
        · exact Or.inl h
        · rcases List.mem_cons.mp h with rfl | h2
          · exact Or.inl hn
          · exact Or.inr h2
    · rw [List.foldl_cons, if_neg hn, ih]
      constructor
      · rintro (h | h)
        · rcases List.mem_append.mp h with h2 | h2
          · exact Or.inl h2
          · exact Or.inr (by simpa using Or.inl (List.mem_singleton.mp h2))
        · exact Or.inr (by simp [h])
      · rintro (h | h)
        · exact Or.inl (by simp [h])
        · rcases List.mem_cons.mp h with rfl | h2
          · exact Or.inl (by simp)
          · exact Or.inr h2

lemma nodup_dedupFirst (xs : List String) : (dedupFirst xs).Nodup := by
  suffices haux : ∀ (xs acc : List String), acc.Nodup →
      (xs.foldl (fun acc n => if n ∈ acc then acc else acc ++ [n]) acc).Nodup by
    exact haux xs [] (by simp)
  intro xs
  induction xs with
  | nil => intro acc h; simpa using h
  | cons n xs ih =>
    intro acc h
    by_cases hn : n ∈ acc
    · rw [List.foldl_cons, if_pos hn]
      exact ih acc h
    · rw [List.foldl_cons, if_neg hn]
      refine ih (acc ++ [n]) ?_
      rw [List.nodup_append]
      refine ⟨h, by simp, ?_⟩
      intro a ha hb
      simp at hb
      exact hn (hb ▸ ha)

lemma dedupFirst_append_singleton (xs : List String) (n : String) :
    dedupFirst (xs ++ [n])
      = if n ∈ dedupFirst xs then dedupFirst xs else dedupFirst xs ++ [n] := by
  simp [dedupFirst, List.foldl_append]

lemma bumpCount_mem (ns : List String) (f : String → Nat) (n : String) :
    ∀ (hd : ns.Nodup) (hn : n ∈ ns),
      bumpCount (ns.map (fun m => (m, f m))) n
        = ns.map (fun m => (m, if m = n then f m + 1 else f m)) := by
  induction ns with
  | nil => intro _ hn; cases hn
  | cons m ns ih =>
    intro hd hn
    rcases List.nodup_cons.mp hd with ⟨hm, hnd⟩
    by_cases hmn : m = n
    · have hm2 : n ∉ ns := by rw [← hmn]; exact hm
      have htail : ns.map (fun k => (k, if k = n then f k + 1 else f k))
          = ns.map (fun k => (k, f k)) := by
        refine List.map_eq_map_iff.mpr ?_
        intro x hx
        have hxn : x ≠ n := fun hxe => hm2 (hxe ▸ hx)
        simp [hxn]
      rw [List.map_cons, List.map_cons,
        show bumpCount ((m, f m) :: ns.map (fun k => (k, f k))) n
            = (m, f m + 1) :: ns.map (fun k => (k, f k)) from by
          simp [bumpCount, hmn],
        if_pos hmn, htail]
    · have hn2 : n ∈ ns := by
        rcases List.mem_cons.mp hn with h | h
        · exact absurd h.symm hmn
        · exact h
      rw [List.map_cons, List.map_cons,
        show bumpCount ((m, f m) :: ns.map (fun k => (k, f k))) n
            = (m, f m) :: bumpCount (ns.map (fun k => (k, f k))) n from by
          simp [bumpCount, hmn],
        if_neg hmn, ih hnd hn2]

lemma bumpCount_new (ns : List String) (f : String → Nat) (n : String) :
    ∀ (hn : n ∉ ns),
      bumpCount (ns.map (fun m => (m, f m))) n
        = ns.map (fun m => (m, f m)) ++ [(n, 1)] := by
  induction ns with
  | nil => intro _; simp [bumpCount]
  | cons m ns ih =>
    intro hn
    have hmn : m ≠ n := by
      intro h
      exact hn (by simp [h])
    have hn2 : n ∉ ns := fun h => hn (by simp [h])
    rw [List.map_cons,
      show bumpCount ((m, f m) :: ns.map (fun k => (k, f k))) n
          = (m, f m) :: bumpCount (ns.map (fun k => (k, f k))) n from by
        simp [bumpCount, hmn],
      ih hn2]
    rfl

/-- The bump-fold tally over a name sequence is exactly one entry per
distinct name in first-seen order carrying its occurrence count. -/
lemma foldl_bumpCount_spec (xs : List String) :
    xs.foldl bumpCount []
      = (dedupFirst xs).map (fun n => (n, xs.countP (fun m => m == n))) := by
  induction xs using List.reverseRecOn with
  | nil => simp [dedupFirst]
  | append_singleton xs n ih =>
    rw [List.foldl_append, List.foldl_cons, List.foldl_nil, ih,
      dedupFirst_append_singleton]
    by_cases hn : n ∈ dedupFirst xs
    · rw [if_pos hn,
        bumpCount_mem (dedupFirst xs) (fun m => xs.countP (fun x => x == m)) n
          (nodup_dedupFirst xs) hn]
      refine List.map_eq_map_iff.mpr ?_
      intro m hm
      by_cases hmn : m = n
      · simp [hmn, List.countP_append]
      · simp [hmn, List.countP_append, Ne.symm hmn]
    · rw [if_neg hn,
        bumpCount_new (dedupFirst xs) (fun m => xs.countP (fun x => x == m)) n
          (fun h => hn h)]
      rw [List.map_append]
      congr 1
      · refine List.map_eq_map_iff.mpr ?_
        intro m hm
        have hmn : m ≠ n := by
          intro h
          exact hn (h ▸ hm)
        simp [List.countP_append, Ne.symm hmn]
      · have hzero : xs.countP (fun m => m == n) = 0 := by
          refine List.countP_eq_zero.mpr ?_
          intro a ha
          have : a ≠ n := by
            intro h
            exact hn ((mem_dedupFirst xs n).mpr (h ▸ ha))
          simp [this]
        simp [List.countP_append, hzero]

/-- The fold-based per-strategy tally of the source equals the
specification-side tally. -/
lemma strategyUsage_eq_usageSpec (attempts : List HealingAttempt) :
    strategyUsage attempts = usageSpec attempts := by
  rw [strategyUsage_eq_foldl_names, foldl_bumpCount_spec, usageSpec]
  refine List.map_eq_map_iff.mpr ?_
  intro n hn
  have hcount : (successNames attempts).countP (fun m => m == n)
      = succCountSpec attempts n := by
    rw [successNames, successfulOf, List.countP_map, succCountSpec,
      ← List.countP_eq_length_filter, List.countP_filter]
    refine List.countP_congr ?_
    intro a _
    simp [Bool.and_comm]
  rw [hcount]

/-! #### The head of the stable descending sort is the first entry with
maximal key. -/

lemma find?_pred_congr {α : Type} (p q : α → Bool) :
    ∀ l : List α, (∀ x ∈ l, p x = q x) → l.find? p = l.find? q := by
  intro l
  induction l with
  | nil => intro _; rfl
  | cons a l ih =>
    intro h
    by_cases hqa : q a = true
    · rw [List.find?_cons_of_pos _ (by rw [h a (by simp)]; exact hqa),
        List.find?_cons_of_pos _ hqa]
    · have hpa : ¬ p a = true := by rw [h a (by simp)]; exact hqa
      rw [List.find?_cons_of_neg _ (by simpa using hpa),
        List.find?_cons_of_neg _ (by simpa using hqa)]
      exact ih (fun x hx => h x (by simp [hx]))

lemma find?_first_max {α β : Type} [LinearOrder β] (key : α → β) (K : β) (h : α) :
    ∀ (v : List α), (∀ x ∈ v, key x ≤ K) →
      ∀ rest : List α, v.filter (fun x => decide (key x = K)) = h :: rest →
        v.find? (fun x => decide (K ≤ key x)) = some h := by
  intro v
  induction v with
  | nil =>
    intro _ rest hf
    simp at hf
  | cons a v ih =>
    intro hle rest hf
    by_cases hak : key a = K
    · have hda : decide (key a = K) = true := by simp [hak]
      rw [List.filter_cons, hda] at hf
      simp only [if_true] at hf
      have hha : a = h := (List.cons.injEq _ _ _ _).mp hf |>.1
      rw [show List.find? (fun x => decide (K ≤ key x)) (a :: v) = some a from
        List.find?_cons_of_pos _ (by simp [hak])]
      rw [hha]
    · have hda : decide (key a = K) = false := by simp [hak]
      rw [List.filter_cons, hda] at hf
      simp only [Bool.false_eq_true, if_false] at hf
      have hna : ¬ K ≤ key a := by
        intro hKa
        exact hak (le_antisymm (hle a (by simp)) hKa)
      rw [show List.find? (fun x => decide (K ≤ key x)) (a :: v)
          = List.find? (fun x => decide (K ≤ key x)) v from
        List.find?_cons_of_neg _ (by simpa using hna)]
      exact ih (fun x hx => hle x (by simp [hx])) rest hf

lemma head?_sortByKeyDesc {α β : Type} [LinearOrder β] (key : α → β) (u : List α) :
    (sortByKeyDesc key u).head?
      = u.find? (fun p => u.all (fun q => decide (key q ≤ key p))) := by
  cases hs : sortByKeyDesc key u with
  | nil =>
    have hu : u = [] := by
      have hl := (sortByKeyDesc_perm key u).length_eq
      rw [hs] at hl
      exact List.length_eq_zero.mp hl.symm
    rw [hu]
    rfl
  | cons h t =>
    have hperm := sortByKeyDesc_perm key u
    rw [hs] at hperm
    have hpw := sortByKeyDesc_pairwise key u
    rw [hs] at hpw
    rcases List.pairwise_cons.mp hpw with ⟨hht, _⟩
    have hmax : ∀ q ∈ u, key q ≤ key h := by
      intro q hq
      rcases List.mem_cons.mp (hperm.mem_iff.mpr hq) with rfl | hqt
      · exact le_refl _
      · exact hht q hqt
    have hhu : h ∈ u := hperm.mem_iff.mp (by simp)
    have hstab := sortByKeyDesc_stable key u (key h)
    rw [hs] at hstab
    have hfh : (h :: t).filter (fun x => decide (key x = key h))
        = h :: t.filter (fun x => decide (key x = key h)) := by
      simp [List.filter_cons]
    rw [hfh] at hstab
    have hfind := find?_first_max key (key h) h u hmax _ hstab.symm
    have hcongr : u.find? (fun p => u.all (fun q => decide (key q ≤ key p)))
        = u.find? (fun x => decide (key h ≤ key x)) := by
      refine find?_pred_congr _ _ u ?_
      intro x hx
      by_cases hbx : key h ≤ key x
      · have hall : u.all (fun q => decide (key q ≤ key x)) = true := by
          rw [List.all_eq_true]
          intro q hq
          simpa using le_trans (hmax q hq) hbx
        rw [hall]
        simp [hbx]
      · have hall : u.all (fun q => decide (key q ≤ key x)) = false := by
          rw [Bool.eq_false_iff]
          intro hall
          rw [List.all_eq_true] at hall
          exact hbx (by simpa using hall h hhu)
        rw [hall]
        simp [hbx]
    rw [hcongr, hfind]
    rfl

lemma foldl_add_confidence (l : List HealingAttempt) :
    ∀ init : ℚ, l.foldl (fun sum a => sum + a.confidence) init
      = init + (l.map (fun a => a.confidence)).sum := by
  induction l with
  | nil => intro init; simp
  | cons a l ih =>
    intro init
    rw [List.foldl_cons, ih, List.map_cons, List.sum_cons]
    ring

/-- Claim C6: the report's top strategies are the first three entries of
the stable count-descending sort of the per-strategy success tally (one
entry per distinct name in first-seen order) — the sort is descending in
count (pairwise clause) and keeps equal counts in first-seen order
(stability clause) — its recent attempts are the last ten in ledger order,
and its average confidence is the mean confidence of the successful
attempts. -/
theorem report_contract (attempts : List HealingAttempt) :
    (generateHealingReport attempts).topStrategies
        = ((sortUsage (usageSpec attempts)).take 3).map (fun p => p.1)
    ∧ (sortUsage (usageSpec attempts)).Pairwise (fun p q => q.2 ≤ p.2)
    ∧ (∀ c : Nat, (sortUsage (usageSpec attempts)).filter (fun p => decide (p.2 = c))
        = (usageSpec attempts).filter (fun p => decide (p.2 = c)))
    ∧ (generateHealingReport attempts).recentAttempts = lastEntries 10 attempts
    ∧ (generateHealingReport attempts).averageConfidence
        = (if (successfulOf attempts).length = 0 then 0
           else ((successfulOf attempts).map (fun a => a.confidence)).sum
                  / ((successfulOf attempts).length : ℚ))
    ∧ (generateHealingReport attempts).totalAttempts = attempts.length := by
  refine ⟨?_, ?_, ?_, ?_, ?_, rfl⟩
  · have h1 : (generateHealingReport attempts).topStrategies
        = ((sortUsage (strategyUsage attempts)).take 3).map (fun p => p.1) := rfl
    rw [h1, strategyUsage_eq_usageSpec]
  · exact sortByKeyDesc_pairwise _ _
  · intro c
    exact sortByKeyDesc_stable _ _ c
  · have h1 : (generateHealingReport attempts).recentAttempts
        = attempts.drop (attempts.length - 10) := rfl
    rw [h1, lastEntries_eq_drop]
  · have h1 : (generateHealingReport attempts).averageConfidence
        = (if 0 < (successfulOf attempts).length then
            ((successfulOf attempts).foldl (fun sum a => sum + a.confidence) 0)
              / ((successfulOf attempts).length : ℚ)
           else 0) := rfl
    rw [h1]
    by_cases hz : (successfulOf attempts).length = 0
    · rw [if_neg (by omega), if_pos hz]
    · rw [if_pos (by omega), if_neg hz, foldl_add_confidence]
      rw [zero_add]

/-! ### Claim C7: the recommendation rules. -/

/-- Claim C7: the report's recommendations are exactly the rules of the
specification evaluated in order, and the final rule fires exactly when
some attempt succeeded (every tally entry records at least one success). -/
theorem recommendations_contract (attempts : List HealingAttempt) :
    generateRecommendations attempts = recommendationsSpec attempts
    ∧ ((argmaxFirst (usageSpec attempts)).isSome
        ↔ ∃ a ∈ attempts, a.success = true) := by
  have htop : (sortUsage (strategyUsage attempts)).head?
      = argmaxFirst (usageSpec attempts) := by
    rw [strategyUsage_eq_usageSpec]
    exact head?_sortByKeyDesc (fun p => p.2) (usageSpec attempts)
  constructor
  · by_cases hemp : attempts = []
    · simp [generateRecommendations, recommendationsSpec, hemp]
    · have hlen0 : ¬ attempts.length = 0 := by
        simpa using fun h => hemp (List.length_eq_zero.mp h)
      rw [generateRecommendations, recommendationsSpec, if_neg hlen0, if_neg hemp]
      have hrate : ((attempts.filter (fun a => a.success)).length : ℚ)
            / (attempts.length : ℚ)
          = ((attempts.countP (fun a => a.success) : ℚ) / (attempts.length : ℚ)) := by
        rw [List.countP_eq_length_filter]
      have hrecent : ((attempts.drop (attempts.length - 20)).filter
            (fun a => !a.success)).length
          = (lastEntries 20 attempts).countP (fun a => !a.success) := by
        rw [lastEntries_eq_drop, List.countP_eq_length_filter]
      rw [hrate]
      simp only [hrecent, htop]
  · rw [← htop]
    have hlen := (sortByKeyDesc_perm (fun p : String × Nat => p.2)
      (strategyUsage attempts)).length_eq
    constructor
    · intro hsome
      have hne : sortUsage (strategyUsage attempts) ≠ [] := by
        intro hnil
        rw [hnil] at hsome
        simp at hsome
      have hu : strategyUsage attempts ≠ [] := by
        intro hnil
        exact hne (by
          have : (sortUsage (strategyUsage attempts)).length = 0 := by
            rw [sortUsage]
            rw [hlen, hnil]
            rfl
          exact List.length_eq_zero.mp this)
      rw [strategyUsage_eq_usageSpec, usageSpec] at hu
      have hnames : successNames attempts ≠ [] := by
        intro hnil
        exact hu (by rw [hnil]; rfl)
      rcases List.exists_mem_of_ne_nil _ hnames with ⟨n, hn⟩
      rcases List.mem_map.mp hn with ⟨a, ha, _⟩
      rcases List.mem_filter.mp ha with ⟨hmem, hsucc⟩
      exact ⟨a, hmem, by simpa using hsucc⟩
    · rintro ⟨a, ha, hsucc⟩
      have hn : a.strategy ∈ successNames attempts :=
        List.mem_map.mpr ⟨a, List.mem_filter.mpr ⟨ha, by simp [hsucc]⟩, rfl⟩
      have hu : strategyUsage attempts ≠ [] := by
        rw [strategyUsage_eq_usageSpec, usageSpec]
        intro hnil
        rcases List.map_eq_nil_iff.mp hnil with hded
        have : a.strategy ∈ dedupFirst (successNames attempts) :=
          (mem_dedupFirst _ _).mpr hn
        rw [hded] at this
        cases this
      have hne : sortUsage (strategyUsage attempts) ≠ [] := by
        intro hnil
        exact hu (List.length_eq_zero.mp (by rw [← hlen, ← sortUsage, hnil]; rfl))
      rcases List.exists_mem_of_ne_nil _ hne with ⟨p, hp⟩
      cases hs : sortUsage (strategyUsage attempts) with
      | nil => exact absurd hs hne
      | cons q t => simp [hs]

end KatalonMCP
